import Mathlib

/-!
Shallow embedding of the clause-selection core of the PyRes fork:
`minheap.py` (the priority clause queue), `literals.py` (the literal data
model with its parsing and printing) and `rescontrol.py` (resolvent and
factor enumeration).  The term, lexer, clause, clause-set, resolution and
factoring collaborators live outside the embedded sources and are modelled
from the specification at their interface boundary.

Numeric conventions: `minheap.py` carries no Python 2 marker, so `/` is
modelled as exact (Python 3 true) division; list indices are `Nat`;
heuristic evaluations are `Int`.  A Python `IndexError` is modelled as the
`Except.error` branch of the affected operation.
-/

set_option autoImplicit false

namespace PyRes

/-! ### minheap.py : data model -/

/-- Embedding of a heap node: `MinHeap.insert` stores the Python list
`[evaluation, clause, count]`.  The clause and the auxiliary count are
opaque handles, never inspected by the queue. -/
structure HeapNode where
  eval : Int
  clause : Nat
  count : Nat
deriving DecidableEq

instance : Inhabited HeapNode := ⟨⟨0, 0, 0⟩⟩

/-- Embedding of `MinHeap.switch`: `temp = tree[node1]; tree[node1] =
tree[node2]; tree[node2] = temp`.  Out-of-range positions leave the list
unchanged; the source only ever calls it with in-range positions. -/
def switch (t : List HeapNode) (i j : Nat) : List HeapNode :=
  match t.get? i, t.get? j with
  | some a, some b => (t.set i b).set j a
  | _, _ => t

/-- Parent position used by `MinHeap.bubbleup`: the source computes
`math.ceil((node / 2) - 1)` with true division, which for `node ≥ 1` is
the ceiling of `node/2 - 1`, i.e. `(node + 1) / 2 - 1` in `Nat`
arithmetic.  `bubbleup` never evaluates it at `node = 0`. -/
def parentIdx (node : Nat) : Nat := (node + 1) / 2 - 1

theorem switch_length (t : List HeapNode) (i j : Nat) :
    (switch t i j).length = t.length := by
  unfold switch
  cases t.get? i <;> cases t.get? j <;> simp

/-- Recursion core of `MinHeap.bubbleup`: stop at the root or at a parent
whose evaluation is at most the node's, otherwise swap with the parent and
continue from the parent position.  The recursion descends along the
strictly decreasing parent chain, so the structural `fuel` argument (the
starting node index, see `bubbleup`) is never exhausted: `parentIdx node`
is at most `node - 1`, hence `fuel ≥ node` is preserved and the
fuel-exhausted branch is unreachable. -/
def bubbleupGo : Nat → List HeapNode → Nat → List HeapNode
  | _, t, 0 => t
  | 0, t, _ + 1 => t
  | fuel + 1, t, node + 1 =>
    if (t.getD (parentIdx (node + 1)) default).eval ≤ (t.getD (node + 1) default).eval
    then t
    else bubbleupGo fuel (switch t (node + 1) (parentIdx (node + 1))) (parentIdx (node + 1))

/-- Embedding of `MinHeap.bubbleup`. -/
def bubbleup (t : List HeapNode) (node : Nat) : List HeapNode :=
  bubbleupGo node t node

/-- Embedding of the `MinHeap` object: a wrapper around the node array. -/
structure MinHeap where
  tree : List HeapNode
deriving DecidableEq

/-- The fresh heap built by `MinHeap.__init__`. -/
def MinHeap.empty : MinHeap := ⟨[]⟩

/-- Embedding of `MinHeap.insert(clause, count, evaluation)`: append
`[evaluation, clause, count]` and bubble up from the last position. -/
def MinHeap.insert (h : MinHeap) (clause count : Nat) (evaluation : Int) : MinHeap :=
  let tree := h.tree ++ [⟨evaluation, clause, count⟩]
  ⟨bubbleup tree (tree.length - 1)⟩

/-- Recursion core of `MinHeap.bubbledown`.  The single-child branch
performs the inline swap of the source (`temp = ...`), which is the same
exchange as `switch`.  The node index strictly increases towards a child
position bounded by the (swap-invariant) list length, so the structural
`fuel` argument (the list length, see `bubbledown`) is never exhausted. -/
def bubbledownGo : Nat → List HeapNode → Nat → List HeapNode
  | 0, t, _ => t
  | fuel + 1, t, node =>
    let leftchild := 2 * node + 1
    if leftchild > t.length - 1 then t
    else
      let rightchild := leftchild + 1
      if rightchild > t.length - 1 then
        if (t.getD leftchild default).eval < (t.getD node default).eval then
          switch t leftchild node
        else t
      else
        if (t.getD leftchild default).eval < (t.getD node default).eval ∨
            (t.getD rightchild default).eval < (t.getD node default).eval then
          if (t.getD leftchild default).eval ≤ (t.getD rightchild default).eval then
            bubbledownGo fuel (switch t node leftchild) leftchild
          else bubbledownGo fuel (switch t node rightchild) rightchild
        else t

/-- Embedding of `MinHeap.bubbledown`. -/
def bubbledown (t : List HeapNode) (node : Nat) : List HeapNode :=
  bubbledownGo t.length t node

deriving instance DecidableEq for Except

/-- Embedding of `MinHeap.getBest`, returning the Python result triple
`(clause, count, done)` together with the new heap state.  The source
statement `self.tree[0] = self.tree.pop()` first pops the last element and
then assigns index 0; when the heap holds exactly one element the list is
empty after the pop and the assignment raises `IndexError`, modelled as
the `Except.error` branch. -/
def MinHeap.getBest (h : MinHeap) :
    Except String ((Option Nat × Option Nat × Bool) × MinHeap) :=
  match h.tree with
  | [] => .ok ((none, none, true), h)
  | x :: xs =>
    let popped := xs.getLastD x
    match (x :: xs).dropLast with
    | [] => .error "IndexError"
    | _ :: rest =>
      .ok ((some x.clause, some x.count, false), ⟨bubbledown (popped :: rest) 0⟩)

/-! ### Term collaborator (terms.py lies outside the embedded sources) -/

/-- Modelled from the spec: the external first-order term structure of the
Term collaborator, a tagged variant of variable versus function
application (equations are applications of the pseudo-functors `=` and
`!=` to the two sides). -/
inductive Term where
  | var (name : String)
  | app (func : String) (args : List Term)

instance : Inhabited Term := ⟨Term.app "" []⟩

mutual

/-- Decidable structural equality on terms (the deriving handler does not
support the nested `List Term`, so the procedure is spelled out). -/
def Term.decEq : (a b : Term) → Decidable (a = b)
  | .var x, .var y =>
    match String.decEq x y with
    | isTrue h => isTrue (by rw [h])
    | isFalse h => isFalse (by simp [h])
  | .app f as, .app g bs =>
    match String.decEq f g, Term.decEqList as bs with
    | isTrue h1, isTrue h2 => isTrue (by rw [h1, h2])
    | isFalse h1, _ => isFalse (by simp [h1])
    | _, isFalse h2 => isFalse (by simp [h2])
  | .var _, .app _ _ => isFalse (by simp)
  | .app _ _, .var _ => isFalse (by simp)

/-- Decidable structural equality on term lists. -/
def Term.decEqList : (as bs : List Term) → Decidable (as = bs)
  | [], [] => isTrue rfl
  | a :: as, b :: bs =>
    match Term.decEq a b, Term.decEqList as bs with
    | isTrue h1, isTrue h2 => isTrue (by rw [h1, h2])
    | isFalse h1, _ => isFalse (by simp [h1])
    | _, isFalse h2 => isFalse (by simp [h2])
  | [], _ :: _ => isFalse (by simp)
  | _ :: _, [] => isFalse (by simp)

end

instance : DecidableEq Term := Term.decEq

/-- Modelled from the spec: the collaborator operation `functor(term)`.
It is only meaningful on applications (the external code asserts the term
is compound); on a variable we return `none`. -/
def termFunc : Term → Option String
  | .var _ => none
  | .app f _ => some f

/-- Modelled from the spec: the collaborator operation `arguments(term)`.
Only meaningful on applications; a variable has no arguments. -/
def termArgs : Term → List Term
  | .var _ => []
  | .app _ args => args

/-- Modelled from the spec: `structurallyEqual(t1, t2)`, recursive
structural equality, order-sensitive on arguments and
variable-name-sensitive. -/
def termEqual (s t : Term) : Bool := decide (s = t)

mutual

/-- Modelled from the spec: `applySubstitution(term, substitution)`
replaces variables by their images and rebuilds applications without
mutating shared subterms. -/
def applySubst (sub : String → Option Term) : Term → Term
  | .var x =>
    match sub x with
    | some t => t
    | none => .var x
  | .app f args => .app f (applySubstList sub args)

/-- Pointwise `applySubst` over an argument list. -/
def applySubstList (sub : String → Option Term) : List Term → List Term
  | [] => []
  | t :: ts => applySubst sub t :: applySubstList sub ts

end

/-! ### literals.py : the Literal data model -/

/-- Embedding of the `Literal` class state: a signed atom. -/
structure Literal where
  atom : Term
  negative : Bool
deriving DecidableEq

/-- Embedding of `Literal.__init__(atom, negative)`: a literal whose atom
is headed by the pseudo-functor `!=` is normalized to the `=` head with
the same arguments and a flipped sign; any other atom and the sign are
stored unchanged. -/
def Literal.make (atom : Term) (negative : Bool) : Literal :=
  if termFunc atom = some "!=" then
    ⟨Term.app "=" (termArgs atom), !negative⟩
  else
    ⟨atom, negative⟩

/-- Embedding of `Literal.isEquational`. -/
def Literal.isEquational (l : Literal) : Bool := termFunc l.atom = some "="

/-- Embedding of `Literal.isNegative`. -/
def Literal.isNegative (l : Literal) : Bool := l.negative

/-- Embedding of `Literal.isPositive`. -/
def Literal.isPositive (l : Literal) : Bool := !l.negative

/-- Embedding of `Literal.isEqual(other)`: same sign and structurally
equal atoms. -/
def Literal.isEqual (l other : Literal) : Bool :=
  l.isNegative == other.isNegative && termEqual l.atom other.atom

/-- Embedding of `Literal.isOpposite(other)`: opposite sign and
structurally equal atoms. -/
def Literal.isOpposite (l other : Literal) : Bool :=
  l.isNegative != other.isNegative && termEqual l.atom other.atom

/-- Embedding of `Literal.instantiate(subst)`: a new literal built from
the substituted atom and the current sign (going through the normalizing
constructor). -/
def Literal.instantiate (l : Literal) (sub : String → Option Term) : Literal :=
  Literal.make (applySubst sub l.atom) l.negative

/-! ### Lexer collaborator and parsing/printing (token level)

The lexer (lexer.py) lies outside the embedded sources; modelled from the
spec, a parser consumes a stream of tokens supporting look-ahead at the
current token, a kind test and consumption.  Strings are therefore
represented by their token sequences; `$false` is a keyword token of its
own, distinct from every predicate identifier. -/

/-- Modelled from the spec: the token alphabet of the literal-list surface
syntax. -/
inductive Tok where
  | ident (s : String)
  | varTok (s : String)
  | eqTok
  | neqTok
  | orTok
  | negTok
  | lp
  | rp
  | commaTok
  | falseTok
deriving DecidableEq

mutual

/-- Modelled from the spec: `parseTerm(stream)` of the Term collaborator —
a variable token, or a functor identifier optionally followed by a
parenthesised comma-separated argument list.  The structural `fuel`
argument bounds the recursion depth; any fuel at least the term size is
enough (see `parseTerm_parseTermList_render`). -/
def parseTerm : Nat → List Tok → Option (Term × List Tok)
  | 0, _ => none
  | _ + 1, Tok.varTok x :: ts1 => some (Term.var x, ts1)
  | fuel + 1, Tok.ident f :: ts1 =>
    if ts1.head? = some Tok.lp then
      match parseTermList fuel ts1.tail with
      | some (args, ts2) =>
        if ts2.head? = some Tok.rp then some (Term.app f args, ts2.tail)
        else none
      | none => none
    else some (Term.app f [], ts1)
  | _ + 1, _ => none

/-- Modelled from the spec: the comma-separated term list inside an
argument list. -/
def parseTermList : Nat → List Tok → Option (List Term × List Tok)
  | 0, _ => none
  | fuel + 1, ts =>
    match parseTerm fuel ts with
    | some (t, ts1) =>
      if ts1.head? = some Tok.commaTok then
        match parseTermList fuel ts1.tail with
        | some (rest, ts2) => some (t :: rest, ts2)
        | none => none
      else some ([t], ts1)
    | none => none

end

/-- Embedding of `parseAtom(lexer)`: parse a term; if the next token is
`=` or `!=`, consume it, parse the other side and build the 3-element
atom `(op, lhs, rhs)`. -/
def parseAtom (fuel : Nat) (ts : List Tok) : Option (Term × List Tok) :=
  match parseTerm fuel ts with
  | none => none
  | some (atom, ts1) =>
    if ts1.head? = some Tok.eqTok then
      match parseTerm fuel ts1.tail with
      | some (rhs, ts2) => some (Term.app "=" [atom, rhs], ts2)
      | none => none
    else if ts1.head? = some Tok.neqTok then
      match parseTerm fuel ts1.tail with
      | some (rhs, ts2) => some (Term.app "!=" [atom, rhs], ts2)
      | none => none
    else some (atom, ts1)

/-- Embedding of `parseLiteral(lexer)`: an optional negation sign `~`
followed by an atom, passed through the normalizing constructor. -/
def parseLiteral (fuel : Nat) (ts : List Tok) : Option (Literal × List Tok) :=
  if ts.head? = some Tok.negTok then
    match parseAtom fuel ts.tail with
    | some (atom, ts1) => some (Literal.make atom true, ts1)
    | none => none
  else
    match parseAtom fuel ts with
    | some (atom, ts1) => some (Literal.make atom false, ts1)
    | none => none

/-- Loop part of `parseLiteralList(lexer)`: while the next token is `|`,
consume it; a following `$false` keyword is consumed and dropped,
otherwise a literal is parsed and appended.  One fuel unit per iteration
(`itemsFuel` of the remaining items is always enough). -/
def parseLiteralListLoop (fuel : Nat) (acc : List Literal) (ts : List Tok) :
    Option (List Literal × List Tok) :=
  match fuel with
  | 0 => none
  | fuel + 1 =>
    if ts.head? = some Tok.orTok then
      let ts1 := ts.tail
      if ts1.head? = some Tok.falseTok then parseLiteralListLoop fuel acc ts1.tail
      else
        match parseLiteral fuel ts1 with
        | some (lit, ts2) => parseLiteralListLoop fuel (acc ++ [lit]) ts2
        | none => none
    else some (acc, ts)

/-- Embedding of `parseLiteralList(lexer)`: the first entry (either the
dropped `$false` keyword or a literal) followed by the `|` loop. -/
def parseLiteralList (fuel : Nat) (ts : List Tok) : Option (List Literal × List Tok) :=
  if ts.head? = some Tok.falseTok then parseLiteralListLoop fuel [] ts.tail
  else
    match parseLiteral fuel ts with
    | some (lit, ts1) => parseLiteralListLoop fuel [lit] ts1
    | none => none

mutual

/-- Modelled from the spec: the printed form of a term, at the token
level (`term2String` of the Term collaborator): a variable prints as its
token, a constant as its functor and an application as
`f(arg1,...,argn)`. -/
def term2Tokens : Term → List Tok
  | .var x => [.varTok x]
  | .app f [] => [.ident f]
  | .app f (a :: as) => .ident f :: .lp :: (termList2Tokens (a :: as) ++ [.rp])

/-- Comma-joined printed forms of an argument list. -/
def termList2Tokens : List Term → List Tok
  | [] => []
  | [t] => term2Tokens t
  | t :: t2 :: ts => term2Tokens t ++ Tok.commaTok :: termList2Tokens (t2 :: ts)

end

/-- Embedding of `Literal.__repr__` at the token level: an equational
literal prints as `lhs=rhs` or `lhs!=rhs` depending on the sign; any
other literal prints as the atom, prefixed with `~` when negative. -/
def literal2Tokens (l : Literal) : List Tok :=
  if l.isEquational then
    term2Tokens ((termArgs l.atom).getD 0 default) ++
      (if l.isNegative then [Tok.neqTok] else [Tok.eqTok]) ++
      term2Tokens ((termArgs l.atom).getD 1 default)
  else
    if l.isNegative then Tok.negTok :: term2Tokens l.atom
    else term2Tokens l.atom

/-- Embedding of `literalList2String` at the token level: `$false` for
the empty list, otherwise the literal representations joined with `|`. -/
def literalList2Tokens (l : List Literal) : List Tok :=
  match l with
  | [] => [Tok.falseTok]
  | x :: xs => literal2Tokens x ++ xs.flatMap (fun y => Tok.orTok :: literal2Tokens y)

/-- An entry of a `|`-separated clause body: either the keyword `$false`
(`none`) or a literal. -/
def item2Tokens : Option Literal → List Tok
  | none => [Tok.falseTok]
  | some l => literal2Tokens l

/-- The token form of a nonempty `|`-separated entry list, possibly with
`$false` entries anywhere. -/
def items2Tokens (items : List (Option Literal)) : List Tok :=
  match items with
  | [] => []
  | x :: xs => item2Tokens x ++ xs.flatMap (fun y => Tok.orTok :: item2Tokens y)

/-- Well-formedness of a literal as produced by the constructor from a
parsed atom: the atom is a predicate application, its head is not `!=`
(the normalization invariant), and an equational atom is binary. -/
def Literal.wf (l : Literal) : Bool :=
  match l.atom with
  | Term.var _ => false
  | Term.app f args =>
    if f = "!=" then false
    else if f = "=" then args.length == 2
    else true

mutual

/-- Structural size of a term; used as a sufficient fuel bound for
`parseTerm`. -/
def termSize : Term → Nat
  | .var _ => 1
  | .app _ args => 1 + termSizeList args

/-- Structural size of a term list. -/
def termSizeList : List Term → Nat
  | [] => 0
  | t :: ts => 1 + termSize t + termSizeList ts

end

/-- Fuel contributed by one `|`-entry. -/
def itemSize : Option Literal → Nat
  | none => 0
  | some l => termSize l.atom

/-- A sufficient fuel bound for `parseLiteralList` on the token form of
an entry list. -/
def itemsFuel : List (Option Literal) → Nat
  | [] => 1
  | x :: xs => 1 + itemSize x + itemsFuel xs

/-! ### rescontrol.py : resolvent and factor enumeration

The clause, clause-set, resolution-rule and factoring-rule collaborators
(clauses.py, clausesets.py, resolution.py — outside the embedded sources)
enter as parameters, modelled from the spec: a clause exposes its literal
count and indexed literal access, a clause set exposes
`getResolutionLiterals(literal)` returning the candidate
(clause, literal-index) pairs, and the rules return a clause or the
none-value.  Python truthiness of a returned clause is its literal count
being nonzero (the clause collaborator reports its length). -/

/-- Embedding of `computeAllResolvents(clause, clauseset)`: for every
literal position of `clause`, query the partners and collect, in order,
every resolution result that is not the none-value (`resolvent != None`,
so a falsy empty clause is still kept). -/
def computeAllResolvents (C R : Type) (clauseLen : C → Nat)
    (getLiteral : C → Nat → Literal)
    (getResolutionLiterals : Literal → List (C × Nat))
    (resolution : C → Nat → C → Nat → Option R) (clause : C) : List R :=
  (List.range (clauseLen clause)).flatMap fun lit =>
    (getResolutionLiterals (getLiteral clause lit)).filterMap fun p =>
      resolution clause lit p.1 p.2

/-- Embedding of `computeAllFactors(clause)`: for every position pair
`(i, j)` with `i < j`, invoke the factoring rule and keep the result only
when it is truthy (`if fact:`), i.e. not the none-value and with a
nonzero literal count. -/
def computeAllFactors (C : Type) (clauseLen : C → Nat)
    (factor : C → Nat → Nat → Option C) (clause : C) : List C :=
  (List.range (clauseLen clause)).flatMap fun i =>
    (List.range' (i + 1) (clauseLen clause - (i + 1))).filterMap fun j =>
      match factor clause i j with
      | some f => if clauseLen f = 0 then none else some f
      | none => none

/-- The position pairs examined by `computeAllFactors` on a clause of `n`
literals. -/
def factorPairs (n : Nat) : List (Nat × Nat) :=
  (List.range n).flatMap fun i =>
    (List.range' (i + 1) (n - (i + 1))).map fun j => (i, j)

/-- The total number of candidate partner pairs over all literal
positions (the sum of the `k_i`). -/
def resolventCandidateCount (C : Type) (clauseLen : C → Nat)
    (getLiteral : C → Nat → Literal)
    (getResolutionLiterals : Literal → List (C × Nat)) (clause : C) : Nat :=
  ((List.range (clauseLen clause)).map fun lit =>
    (getResolutionLiterals (getLiteral clause lit)).length).sum

/-- The number of candidate pairs on which the resolution rule returns
the none-value. -/
def resolventNoneCount (C R : Type) (clauseLen : C → Nat)
    (getLiteral : C → Nat → Literal)
    (getResolutionLiterals : Literal → List (C × Nat))
    (resolution : C → Nat → C → Nat → Option R) (clause : C) : Nat :=
  ((List.range (clauseLen clause)).map fun lit =>
    (getResolutionLiterals (getLiteral clause lit)).countP fun p =>
      (resolution clause lit p.1 p.2).isNone).sum

/-! ### Theorems about minheap.py -/

/-- C1: the claim requires that repeated `getBest()` calls drain the heap
with non-decreasing evaluations and reach the exhaustion signal after
exactly as many successful calls as there were inserts, `getBest()`
succeeding on every heap of size at least 1.  The code violates this:
extracting from a heap of size 1 executes `self.tree[0] = self.tree.pop()`
after the pop has emptied the list, raising `IndexError`, so the final
extraction always fails and exhaustion is never reached.  Concretely,
after two inserts the first `getBest` succeeds and the next one raises. -/
theorem getBest_size_one_raises :
    (∀ (c k : Nat) (e : Int),
      (MinHeap.empty.insert c k e).getBest = Except.error "IndexError") ∧
    (MinHeap.empty.insert 1 0 5 |>.insert 2 0 3 |>.getBest) =
      Except.ok ((some 2, some 0, false), ⟨[⟨5, 1, 0⟩]⟩) ∧
    ((⟨[⟨5, 1, 0⟩]⟩ : MinHeap).getBest) = Except.error "IndexError" :=
  ⟨fun _ _ _ => rfl, by decide, by decide⟩

/-- C2: for every position `i > 0` the parent position used by the
bubble-up step equals `⌊(i - 1) / 2⌋`, and inserting into a heap of size 1
places the new node at position 1 and swaps it with the root exactly when
its evaluation is strictly smaller than the root's. -/
theorem parent_index_floor :
    (∀ i : Nat, 0 < i → parentIdx i = (i - 1) / 2) ∧
    (∀ (a : HeapNode) (c k : Nat) (e : Int),
      (MinHeap.mk [a]).insert c k e =
        if e < a.eval then ⟨[⟨e, c, k⟩, a]⟩ else ⟨[a, ⟨e, c, k⟩]⟩) := by
  constructor
  · intro i hi
    simp only [parentIdx]
    omega
  · intro a c k e
    show (⟨if a.eval ≤ e then [a, ⟨e, c, k⟩] else [⟨e, c, k⟩, a]⟩ : MinHeap) = _
    split_ifs <;> first | rfl | omega

/-- Witness for C2 at position 5 (parent 2) and at concrete size-1
inserts exercising both the swap and the no-swap branch. -/
theorem parent_index_floor_witness :
    (0 < 5 ∧ parentIdx 5 = (5 - 1) / 2) ∧
    (MinHeap.mk [⟨4, 9, 9⟩]).insert 7 0 2 = ⟨[⟨2, 7, 0⟩, ⟨4, 9, 9⟩]⟩ ∧
    (MinHeap.mk [⟨4, 9, 9⟩]).insert 7 0 6 = ⟨[⟨4, 9, 9⟩, ⟨6, 7, 0⟩]⟩ :=
  ⟨⟨by decide, parent_index_floor.1 5 (by decide)⟩,
   by rw [parent_index_floor.2 ⟨4, 9, 9⟩ 7 0 2]; decide,
   by rw [parent_index_floor.2 ⟨4, 9, 9⟩ 7 0 6]; decide⟩

/-- C8: `getBest()` on the empty heap returns the sentinel triple
`(None, None, True)` without raising and without mutating the queue, and
the `True` exhaustion flag distinguishes this sentinel from every valid
extraction result, whose flag is `False`. -/
theorem getBest_empty_exhaustion :
    (MinHeap.mk []).getBest = Except.ok ((none, none, true), MinHeap.mk []) ∧
    (∀ (h : MinHeap) (p : Option Nat × Option Nat × Bool) (h' : MinHeap),
      h.getBest = Except.ok (p, h') → (p.2.2 = true ↔ h.tree = [])) := by
  refine ⟨rfl, ?_⟩
  rintro ⟨tree⟩ p h' hok
  match tree, hok with
  | [], hok =>
    simp only [MinHeap.getBest, Except.ok.injEq, Prod.mk.injEq] at hok
    simp [← hok.1]
  | [x], hok =>
    exact absurd hok (by simp [MinHeap.getBest])
  | x :: y :: ys, hok =>
    simp only [MinHeap.getBest, List.dropLast, Except.ok.injEq, Prod.mk.injEq] at hok
    simp [← hok.1]

/-- Witness for C8: a two-element heap extracts with exhaustion flag
`false` and a nonempty tree. -/
theorem getBest_empty_exhaustion_witness :
    ((false : Bool) = true ↔ ([⟨3, 2, 0⟩, ⟨5, 1, 0⟩] : List HeapNode) = []) :=
  getBest_empty_exhaustion.2 ⟨[⟨3, 2, 0⟩, ⟨5, 1, 0⟩]⟩ (some 2, some 0, false)
    ⟨[⟨5, 1, 0⟩]⟩ (by decide)

/-! ### Theorems about literals.py -/

/-- The constructor never stores an atom headed by the pseudo-functor
`!=`. -/
theorem make_no_neq_head (t : Term) (s : Bool) :
    termFunc (Literal.make t s).atom ≠ some "!=" := by
  unfold Literal.make
  split
  · simp [termFunc]
  · next h => exact h

/-- Any literal returned by `parseLiteral` went through the normalizing
constructor, so its atom is never headed by `!=`. -/
theorem parseLiteral_no_neq_head (fuel : Nat) (ts rest : List Tok) (l : Literal)
    (h : parseLiteral fuel ts = some (l, rest)) : termFunc l.atom ≠ some "!=" := by
  unfold parseLiteral at h
  split at h <;> split at h <;> cases h <;> exact make_no_neq_head _ _

/-- C3: constructing a literal from an atom headed `!=` with arguments
`(a, b)` and sign `s` yields the atom `=(a, b)` with the argument order
unchanged and the sign flipped; constructing from `=`-headed or
non-equational atoms stores the atom and the sign unchanged; and no
literal produced by construction, instantiation or parsing ever stores an
atom headed by `!=`. -/
theorem literal_normalization :
    (∀ (a b : Term) (s : Bool),
      Literal.make (Term.app "!=" [a, b]) s = ⟨Term.app "=" [a, b], !s⟩) ∧
    (∀ (f : String) (args : List Term) (s : Bool), f ≠ "!=" →
      Literal.make (Term.app f args) s = ⟨Term.app f args, s⟩) ∧
    (∀ (t : Term) (s : Bool), termFunc (Literal.make t s).atom ≠ some "!=") ∧
    (∀ (l : Literal) (sub : String → Option Term),
      termFunc (l.instantiate sub).atom ≠ some "!=") ∧
    (∀ (fuel : Nat) (ts rest : List Tok) (l : Literal),
      parseLiteral fuel ts = some (l, rest) → termFunc l.atom ≠ some "!=") := by
  refine ⟨?_, ?_, make_no_neq_head, ?_, parseLiteral_no_neq_head⟩
  · intro a b s
    simp [Literal.make, termFunc, termArgs]
  · intro f args s hf
    simp [Literal.make, termFunc, hf]
  · intro l sub
    exact make_no_neq_head _ _

/-- Witness for C3: a non-equational atom is stored unchanged, and the
literal parsed from the tokens of `a!=b` does not store a `!=` atom. -/
theorem literal_normalization_witness :
    (Literal.make (Term.app "p" [Term.var "X"]) false =
      ⟨Term.app "p" [Term.var "X"], false⟩) ∧
    (termFunc (⟨Term.app "=" [Term.app "a" [], Term.app "b" []], true⟩ : Literal).atom ≠
      some "!=") :=
  ⟨literal_normalization.2.1 "p" [Term.var "X"] false (by decide),
   literal_normalization.2.2.2.2 5 [Tok.ident "a", Tok.neqTok, Tok.ident "b"] []
     ⟨Term.app "=" [Term.app "a" [], Term.app "b" []], true⟩ (by decide)⟩

/-- C7: `isOpposite` is symmetric and irreflexive. -/
theorem isOpposite_symm_irrefl :
    (∀ a b : Literal, a.isOpposite b = b.isOpposite a) ∧
    (∀ a : Literal, a.isOpposite a = false) := by
  constructor
  · intro a b
    simp only [Literal.isOpposite, Literal.isNegative, termEqual]
    rw [show (a.negative != b.negative) = (b.negative != a.negative) by
        cases a.negative <;> cases b.negative <;> rfl,
      decide_eq_decide.mpr (⟨Eq.symm, Eq.symm⟩ : a.atom = b.atom ↔ b.atom = a.atom)]
  · intro a
    simp [Literal.isOpposite, Literal.isNegative]

/-- C9: `isEqual` holds exactly for identical sign and structurally equal
atoms with the argument order respected; in particular the equational
literals `a=b` and `b=a` are not `isEqual`. -/
theorem isEqual_structural :
    ((Literal.make (Term.app "=" [Term.app "a" [], Term.app "b" []]) false).isEqual
      (Literal.make (Term.app "=" [Term.app "b" [], Term.app "a" []]) false) = false) ∧
    (∀ l other : Literal,
      l.isEqual other = true ↔ (l.negative = other.negative ∧ l.atom = other.atom)) := by
  refine ⟨by decide, ?_⟩
  intro l other
  simp [Literal.isEqual, Literal.isNegative, termEqual]

/-- C6: the literal parsed from the tokens of `~a=b` and the literal
parsed from the tokens of `a!=b` are `isEqual`, and the literal parsed
from `~a!=b` and the one parsed from `a=b` are `isEqual`. -/
theorem parse_equational_equivalence :
    (parseLiteral 5 [Tok.negTok, Tok.ident "a", Tok.eqTok, Tok.ident "b"] =
      some (⟨Term.app "=" [Term.app "a" [], Term.app "b" []], true⟩, [])) ∧
    (parseLiteral 5 [Tok.ident "a", Tok.neqTok, Tok.ident "b"] =
      some (⟨Term.app "=" [Term.app "a" [], Term.app "b" []], true⟩, [])) ∧
    ((⟨Term.app "=" [Term.app "a" [], Term.app "b" []], true⟩ : Literal).isEqual
      ⟨Term.app "=" [Term.app "a" [], Term.app "b" []], true⟩ = true) ∧
    (parseLiteral 5 [Tok.negTok, Tok.ident "a", Tok.neqTok, Tok.ident "b"] =
      some (⟨Term.app "=" [Term.app "a" [], Term.app "b" []], false⟩, [])) ∧
    (parseLiteral 5 [Tok.ident "a", Tok.eqTok, Tok.ident "b"] =
      some (⟨Term.app "=" [Term.app "a" [], Term.app "b" []], false⟩, [])) ∧
    ((⟨Term.app "=" [Term.app "a" [], Term.app "b" []], false⟩ : Literal).isEqual
      ⟨Term.app "=" [Term.app "a" [], Term.app "b" []], false⟩ = true) := by
  decide

/-! ### Round trip of printing and parsing (C5) -/

theorem termSize_pos (t : Term) : 1 ≤ termSize t := by
  cases t <;> simp [termSize]

/-- The token form of a term is nonempty and starts with a variable or an
identifier token. -/
theorem term2Tokens_cons (t : Term) :
    ∃ tok tl, term2Tokens t = tok :: tl ∧
      ((∃ s, tok = Tok.varTok s) ∨ (∃ s, tok = Tok.ident s)) := by
  cases t with
  | var x => exact ⟨Tok.varTok x, [], rfl, .inl ⟨x, rfl⟩⟩
  | app f args =>
    cases args with
    | nil => exact ⟨Tok.ident f, [], rfl, .inr ⟨f, rfl⟩⟩
    | cons a as =>
      exact ⟨Tok.ident f, Tok.lp :: (termList2Tokens (a :: as) ++ [Tok.rp]), rfl,
        .inr ⟨f, rfl⟩⟩

/-- Parsing is a left inverse of printing, at the term level: with fuel
at least the term size, `parseTerm` consumes exactly the token form of
the term, provided the following tokens do not start with an opening
parenthesis (for the term list: nor with a comma, which would extend the
list). -/
theorem parseTerm_parseTermList_render :
    ∀ fuel : Nat,
      (∀ (t : Term) (rest : List Tok), termSize t ≤ fuel →
        rest.head? ≠ some Tok.lp →
        parseTerm fuel (term2Tokens t ++ rest) = some (t, rest)) ∧
      (∀ (l : List Term) (rest : List Tok), l ≠ [] → termSizeList l ≤ fuel →
        rest.head? ≠ some Tok.lp → rest.head? ≠ some Tok.commaTok →
        parseTermList fuel (termList2Tokens l ++ rest) = some (l, rest)) := by
  intro fuel
  induction fuel with
  | zero =>
    constructor
    · intro t rest hsize _
      have := termSize_pos t
      omega
    · intro l rest hne hsize _ _
      cases l with
      | nil => exact absurd rfl hne
      | cons t ts =>
        have := termSize_pos t
        simp only [termSizeList] at hsize
        omega
  | succ fuel ih =>
    constructor
    · intro t rest hsize hlp
      match t with
      | .var x => simp [term2Tokens, parseTerm]
      | .app f [] =>
        show parseTerm (fuel + 1) (Tok.ident f :: rest) = some (Term.app f [], rest)
        simp only [parseTerm]
        rw [if_neg hlp]
      | .app f (a :: as) =>
        have hsz : termSizeList (a :: as) ≤ fuel := by
          simp only [termSize] at hsize
          omega
        have hlist := ih.2 (a :: as) (Tok.rp :: rest) (by simp) hsz (by simp) (by simp)
        show parseTerm (fuel + 1)
            (Tok.ident f :: Tok.lp :: ((termList2Tokens (a :: as) ++ [Tok.rp]) ++ rest)) =
          some (Term.app f (a :: as), rest)
        rw [List.append_assoc, List.singleton_append]
        simp only [parseTerm, List.head?_cons, List.tail_cons, reduceIte, hlist]
    · intro l rest hne hsize hlp hcm
      match l with
      | [t] =>
        have ht := ih.1 t rest (by simp only [termSizeList] at hsize; omega) hlp
        show parseTermList (fuel + 1) (term2Tokens t ++ rest) = some ([t], rest)
        simp only [parseTermList, ht]
        rw [if_neg hcm]
      | t :: t2 :: ts =>
        have hts : termSizeList (t2 :: ts) ≤ fuel := by
          simp only [termSizeList] at hsize ⊢
          have := termSize_pos t
          omega
        have ht := ih.1 t (Tok.commaTok :: (termList2Tokens (t2 :: ts) ++ rest))
          (by simp only [termSizeList] at hsize; omega) (by simp)
        have htl := ih.2 (t2 :: ts) rest (by simp) hts hlp hcm
        show parseTermList (fuel + 1)
            ((term2Tokens t ++ Tok.commaTok :: termList2Tokens (t2 :: ts)) ++ rest) =
          some (t :: t2 :: ts, rest)
        rw [List.append_assoc, List.cons_append]
        simp only [parseTermList, ht, List.head?_cons, List.tail_cons, reduceIte, htl]

/-- `parseAtom` on the token form of a plain (non-infix) atom. -/
theorem parseAtom_render_plain (t : Term) (rest : List Tok) (fuel : Nat)
    (hfuel : termSize t ≤ fuel) (h1 : rest.head? ≠ some Tok.lp)
    (h2 : rest.head? ≠ some Tok.eqTok) (h3 : rest.head? ≠ some Tok.neqTok) :
    parseAtom fuel (term2Tokens t ++ rest) = some (t, rest) := by
  have ht := (parseTerm_parseTermList_render fuel).1 t rest hfuel h1
  simp only [parseAtom, ht]
  rw [if_neg h2, if_neg h3]

/-- `parseAtom` on the token form of an infix equation or inequation. -/
theorem parseAtom_render_infix (a b : Term) (neg : Bool) (rest : List Tok) (fuel : Nat)
    (ha : termSize a ≤ fuel) (hb : termSize b ≤ fuel)
    (h1 : rest.head? ≠ some Tok.lp) :
    parseAtom fuel
        (term2Tokens a ++
          (if neg then Tok.neqTok else Tok.eqTok) :: (term2Tokens b ++ rest)) =
      some (Term.app (if neg then "!=" else "=") [a, b], rest) := by
  have hA := (parseTerm_parseTermList_render fuel).1 a
    ((if neg then Tok.neqTok else Tok.eqTok) :: (term2Tokens b ++ rest)) ha
    (by cases neg <;> simp)
  have hB := (parseTerm_parseTermList_render fuel).1 b rest hb h1
  cases neg <;>
    simp only [Bool.false_eq_true, if_false, if_true, reduceIte] at hA ⊢ <;>
    simp only [parseAtom, hA, List.head?_cons, List.tail_cons, reduceIte, hB] <;>
    simp

/-- Parsing is a left inverse of printing at the literal level, for
well-formed literals, when the following tokens cannot extend the
parse. -/
theorem parseLiteral_render (l : Literal) (rest : List Tok) (fuel : Nat)
    (hwf : l.wf = true) (hfuel : termSize l.atom ≤ fuel)
    (h1 : rest.head? ≠ some Tok.lp) (h2 : rest.head? ≠ some Tok.eqTok)
    (h3 : rest.head? ≠ some Tok.neqTok) :
    parseLiteral fuel (literal2Tokens l ++ rest) = some (l, rest) := by
  obtain ⟨atom, neg⟩ := l
  match atom, hwf with
  | Term.app f args, hwf =>
    by_cases hf : f = "="
    · subst hf
      have hlen : args.length = 2 := by
        simp only [Literal.wf] at hwf
        simpa using hwf
      obtain ⟨a, b, rfl⟩ := List.length_eq_two.mp hlen
      have hsz : termSize a ≤ fuel ∧ termSize b ≤ fuel := by
        simp only [termSize, termSizeList] at hfuel
        omega
      have e2t : literal2Tokens ⟨Term.app "=" [a, b], neg⟩ =
          term2Tokens a ++ (if neg then Tok.neqTok else Tok.eqTok) :: term2Tokens b := by
        cases neg <;>
          simp [literal2Tokens, Literal.isEquational, Literal.isNegative, termFunc,
            termArgs]
      rw [e2t, List.append_assoc, List.cons_append]
      obtain ⟨tok, tl, hx, hshape⟩ := term2Tokens_cons a
      have hhead : (term2Tokens a ++
          ((if neg then Tok.neqTok else Tok.eqTok) :: (term2Tokens b ++ rest))).head? ≠
          some Tok.negTok := by
        rw [hx]
        rcases hshape with ⟨s, rfl⟩ | ⟨s, rfl⟩ <;> simp
      have hatom := parseAtom_render_infix a b neg rest fuel hsz.1 hsz.2 h1
      simp only [parseLiteral, if_neg hhead, hatom]
      cases neg <;>
        simp [Literal.make, termFunc, termArgs]
    · have hneq : f ≠ "!=" := by
        intro hcon
        subst hcon
        simp [Literal.wf] at hwf
      have e2t : literal2Tokens ⟨Term.app f args, neg⟩ =
          (if neg then [Tok.negTok] else []) ++ term2Tokens (Term.app f args) := by
        cases neg <;>
          simp [literal2Tokens, Literal.isEquational, Literal.isNegative, termFunc, hf]
      rw [e2t]
      have hatom := parseAtom_render_plain (Term.app f args) rest fuel hfuel h1 h2 h3
      have hmk : Literal.make (Term.app f args) neg = ⟨Term.app f args, neg⟩ := by
        simp [Literal.make, termFunc, hneq]
      cases neg with
      | true =>
        simp only [if_true, List.singleton_append, List.cons_append]
        simp only [parseLiteral, List.head?_cons, List.tail_cons, reduceIte,
          List.nil_append, hatom, hmk]
      | false =>
        simp only [Bool.false_eq_true, if_false, List.nil_append]
        obtain ⟨tok, tl, hx, hshape⟩ := term2Tokens_cons (Term.app f args)
        have hhead : (term2Tokens (Term.app f args) ++ rest).head? ≠ some Tok.negTok := by
          rw [hx]
          rcases hshape with ⟨s, rfl⟩ | ⟨s, rfl⟩ <;> simp
        simp only [parseLiteral, if_neg hhead, hatom, hmk]

/-- The token form of a literal is nonempty and never starts with the
`$false` keyword. -/
theorem literal2Tokens_cons (l : Literal) :
    ∃ tok tl, literal2Tokens l = tok :: tl ∧ tok ≠ Tok.falseTok := by
  unfold literal2Tokens
  split
  · obtain ⟨tok, tl, hx, hshape⟩ := term2Tokens_cons ((termArgs l.atom).getD 0 default)
    refine ⟨tok, tl ++ ((if l.isNegative then [Tok.neqTok] else [Tok.eqTok]) ++
      term2Tokens ((termArgs l.atom).getD 1 default)), ?_, ?_⟩
    · rw [List.append_assoc, hx, List.cons_append]
    · rcases hshape with ⟨s, rfl⟩ | ⟨s, rfl⟩ <;> simp
  · split
    · exact ⟨Tok.negTok, term2Tokens l.atom, rfl, by simp⟩
    · obtain ⟨tok, tl, hx, hshape⟩ := term2Tokens_cons l.atom
      exact ⟨tok, tl, hx, by rcases hshape with ⟨s, rfl⟩ | ⟨s, rfl⟩ <;> simp⟩

/-- The token stream of the remaining `|`-entries is empty or starts with
the disjunction token. -/
theorem items_flatMap_head (xs : List (Option Literal)) :
    (xs.flatMap fun y => Tok.orTok :: item2Tokens y).head? = none ∨
    (xs.flatMap fun y => Tok.orTok :: item2Tokens y).head? = some Tok.orTok := by
  cases xs <;> simp

theorem itemsFuel_pos (items : List (Option Literal)) : 1 ≤ itemsFuel items := by
  cases items <;> simp [itemsFuel] <;> omega

/-- The `|` loop of `parseLiteralList` consumes the token forms of the
remaining entries, appending the parsed literals and skipping every
`$false` keyword. -/
theorem parseLiteralListLoop_render :
    ∀ (items : List (Option Literal)) (fuel : Nat) (acc : List Literal),
      (∀ l, some l ∈ items → l.wf = true) → itemsFuel items ≤ fuel →
      parseLiteralListLoop fuel acc
          (items.flatMap fun y => Tok.orTok :: item2Tokens y) =
        some (acc ++ items.filterMap id, []) := by
  intro items
  induction items with
  | nil =>
    intro fuel acc _ hfuel
    match fuel, hfuel with
    | fuel + 1, _ => simp [parseLiteralListLoop]
  | cons x xs ih =>
    intro fuel acc hwf hfuel
    have hxs : ∀ l, some l ∈ xs → l.wf = true := fun l hl => hwf l (by simp [hl])
    cases fuel with
    | zero =>
      have := itemsFuel_pos (x :: xs)
      omega
    | succ fuel =>
      match x with
      | none =>
        have hrec := ih fuel acc hxs
          (by simp only [itemsFuel, itemSize] at hfuel; omega)
        show parseLiteralListLoop (fuel + 1) acc
            (Tok.orTok :: Tok.falseTok ::
              (xs.flatMap fun y => Tok.orTok :: item2Tokens y)) =
          some (acc ++ List.filterMap id (none :: xs), [])
        simp only [parseLiteralListLoop, List.head?_cons, List.tail_cons, reduceIte,
          hrec]
        simp [List.filterMap_cons]
      | some l =>
        obtain ⟨tok, tl, hx, htok⟩ := literal2Tokens_cons l
        have hlit := parseLiteral_render l
          (xs.flatMap fun y => Tok.orTok :: item2Tokens y) fuel
          (hwf l (by simp))
          (by simp only [itemsFuel, itemSize] at hfuel; omega)
          (by rcases items_flatMap_head xs with h | h <;> simp [h])
          (by rcases items_flatMap_head xs with h | h <;> simp [h])
          (by rcases items_flatMap_head xs with h | h <;> simp [h])
        have hrec := ih fuel (acc ++ [l]) hxs
          (by
            have := itemsFuel_pos xs
            simp only [itemsFuel, itemSize] at hfuel ⊢
            have := termSize_pos l.atom
            omega)
        have hhead : (literal2Tokens l ++
            (xs.flatMap fun y => Tok.orTok :: item2Tokens y)).head? ≠
            some Tok.falseTok := by
          rw [hx, List.cons_append]
          simp [htok]
        show parseLiteralListLoop (fuel + 1) acc
            (Tok.orTok ::
              (literal2Tokens l ++ (xs.flatMap fun y => Tok.orTok :: item2Tokens y))) =
          some (acc ++ List.filterMap id (some l :: xs), [])
        simp only [parseLiteralListLoop, List.head?_cons, List.tail_cons, reduceIte,
          if_neg hhead, hlit, hrec]
        simp [List.filterMap_cons, List.append_assoc]

/-- `parseLiteralList` on the token form of a nonempty entry list returns
exactly the literal entries, every `$false` keyword contributing zero
literals, and consumes the whole stream. -/
theorem parseLiteralList_items (items : List (Option Literal)) (fuel : Nat)
    (hne : items ≠ []) (hwf : ∀ l, some l ∈ items → l.wf = true)
    (hfuel : itemsFuel items ≤ fuel) :
    parseLiteralList fuel (items2Tokens items) = some (items.filterMap id, []) := by
  match items, hne with
  | x :: xs, _ =>
    have hxs : ∀ l, some l ∈ xs → l.wf = true := fun l hl => hwf l (by simp [hl])
    have hxsfuel : itemsFuel xs ≤ fuel := by
      have := itemsFuel_pos xs
      simp only [itemsFuel, itemSize] at hfuel
      match x with
      | none => omega
      | some l => omega
    have hloopnil := parseLiteralListLoop_render xs fuel [] hxs hxsfuel
    match x with
    | none =>
      show parseLiteralList fuel
          (Tok.falseTok :: (xs.flatMap fun y => Tok.orTok :: item2Tokens y)) =
        some (List.filterMap id (none :: xs), [])
      simp only [parseLiteralList, List.head?_cons, List.tail_cons, reduceIte,
        hloopnil]
      simp [List.filterMap_cons]
    | some l =>
      obtain ⟨tok, tl, hx, htok⟩ := literal2Tokens_cons l
      have hlit := parseLiteral_render l
        (xs.flatMap fun y => Tok.orTok :: item2Tokens y) fuel
        (hwf l (by simp))
        (by simp only [itemsFuel, itemSize] at hfuel; omega)
        (by rcases items_flatMap_head xs with h | h <;> simp [h])
        (by rcases items_flatMap_head xs with h | h <;> simp [h])
        (by rcases items_flatMap_head xs with h | h <;> simp [h])
      have hloop := parseLiteralListLoop_render xs fuel [l] hxs hxsfuel
      have hhead : (literal2Tokens l ++
          (xs.flatMap fun y => Tok.orTok :: item2Tokens y)).head? ≠
          some Tok.falseTok := by
        rw [hx, List.cons_append]
        simp [htok]
      show parseLiteralList fuel
          (literal2Tokens l ++ (xs.flatMap fun y => Tok.orTok :: item2Tokens y)) =
        some (List.filterMap id (some l :: xs), [])
      simp only [parseLiteralList, if_neg hhead, hlit, hloop]
      simp [List.filterMap_cons]

/-- On nonempty lists `literalList2String` is the `|`-join of the entry
forms. -/
theorem literalList2Tokens_eq_items (L : List Literal) (hne : L ≠ []) :
    literalList2Tokens L = items2Tokens (L.map some) := by
  match L, hne with
  | x :: xs, _ =>
    simp only [literalList2Tokens, items2Tokens, List.map_cons, item2Tokens]
    congr 1
    induction xs with
    | nil => rfl
    | cons y ys ihy => simp [List.flatMap_cons, item2Tokens, ihy]

theorem isEqual_refl (l : Literal) : l.isEqual l = true := by
  simp [Literal.isEqual, Literal.isNegative, termEqual]

/-- C5: parsing the printed token form of any well-formed literal list
yields a list of the same length whose entry at each position is
`isEqual` to the original entry; parsing the single keyword `$false`
yields the empty list; printing the empty list yields the `$false`
keyword; and every `$false` entry anywhere in a `|`-separated entry list
contributes zero literals. -/
theorem literal_list_round_trip :
    (∀ (L : List Literal) (fuel : Nat), (∀ l ∈ L, l.wf = true) →
      itemsFuel (L.map some) ≤ fuel →
      ∃ res, parseLiteralList fuel (literalList2Tokens L) = some (res, []) ∧
        res.length = L.length ∧
        ∀ (i : Nat) (hi : i < res.length) (hj : i < L.length),
          (res.get ⟨i, hi⟩).isEqual (L.get ⟨i, hj⟩) = true) ∧
    (∀ fuel : Nat, 1 ≤ fuel → parseLiteralList fuel [Tok.falseTok] = some ([], [])) ∧
    literalList2Tokens [] = [Tok.falseTok] ∧
    (∀ (items : List (Option Literal)) (fuel : Nat), items ≠ [] →
      (∀ l, some l ∈ items → l.wf = true) → itemsFuel items ≤ fuel →
      parseLiteralList fuel (items2Tokens items) = some (items.filterMap id, [])) := by
  have hfalse : ∀ fuel : Nat, 1 ≤ fuel →
      parseLiteralList fuel [Tok.falseTok] = some ([], []) := by
    intro fuel hf
    match fuel, hf with
    | fuel + 1, _ => simp [parseLiteralList, parseLiteralListLoop]
  refine ⟨?_, hfalse, rfl, parseLiteralList_items⟩
  intro L fuel hwf hfuel
  match L with
  | [] =>
    refine ⟨[], ?_, rfl, ?_⟩
    · exact hfalse fuel (le_trans (by simp [itemsFuel]) hfuel)
    · intro i hi hj
      simp at hi
  | x :: xs =>
    have hmem : ∀ l, some l ∈ (x :: xs).map some → l.wf = true := by
      intro l hl
      simp only [List.mem_map] at hl
      obtain ⟨a, ha, hae⟩ := hl
      cases hae
      exact hwf _ ha
    have hp := parseLiteralList_items ((x :: xs).map some) fuel (by simp) hmem hfuel
    rw [literalList2Tokens_eq_items (x :: xs) (by simp)]
    have hfm : List.filterMap id ((x :: xs).map some) = x :: xs := by
      simp [List.filterMap_map]
    refine ⟨x :: xs, by rw [hp, hfm], rfl, ?_⟩
    intro i hi hj
    exact isEqual_refl _

/-- Witness for C5: a concrete two-literal list (one predicate literal,
one negative equation) round-trips through printing and parsing. -/
theorem literal_list_round_trip_witness :
    ∃ res, parseLiteralList 30 (literalList2Tokens
        [⟨Term.app "p" [Term.var "X"], false⟩,
         ⟨Term.app "=" [Term.app "a" [], Term.app "b" []], true⟩]) = some (res, []) ∧
      res.length = ([⟨Term.app "p" [Term.var "X"], false⟩,
        ⟨Term.app "=" [Term.app "a" [], Term.app "b" []], true⟩] : List Literal).length ∧
      ∀ (i : Nat) (hi : i < res.length)
        (hj : i < ([⟨Term.app "p" [Term.var "X"], false⟩,
          ⟨Term.app "=" [Term.app "a" [], Term.app "b" []], true⟩] : List Literal).length),
        (res.get ⟨i, hi⟩).isEqual
          (([⟨Term.app "p" [Term.var "X"], false⟩,
            ⟨Term.app "=" [Term.app "a" [], Term.app "b" []], true⟩] : List Literal).get
            ⟨i, hj⟩) = true :=
  literal_list_round_trip.1
    [⟨Term.app "p" [Term.var "X"], false⟩,
     ⟨Term.app "=" [Term.app "a" [], Term.app "b" []], true⟩] 30
    (by decide) (by decide)

/-! ### Theorems about rescontrol.py -/

theorem length_filterMap_add_countP {α β : Type} (f : α → Option β) (l : List α) :
    (l.filterMap f).length + l.countP (fun a => (f a).isNone) = l.length := by
  induction l with
  | nil => simp
  | cons x xs ih =>
    cases hfx : f x <;>
      simp [List.filterMap_cons, hfx, List.countP_cons] <;>
      omega

theorem sum_countP_le_sum_length {γ : Type} (g : Nat → List γ) (p : Nat → γ → Bool) :
    ∀ idxs : List Nat,
      (idxs.map fun i => (g i).countP (p i)).sum ≤
        (idxs.map fun i => (g i).length).sum := by
  intro idxs
  induction idxs with
  | nil => simp
  | cons j js ihj =>
    simp only [List.map_cons, List.sum_cons]
    have := List.countP_le_length (p j) (l := g j)
    omega

theorem sum_filterMap_lengths {γ R : Type} (G : Nat → List γ)
    (F : Nat → γ → Option R) :
    ∀ idxs : List Nat,
      (idxs.flatMap fun i => (G i).filterMap (F i)).length =
        (idxs.map fun i => (G i).length).sum -
          (idxs.map fun i => (G i).countP fun p => (F i p).isNone).sum := by
  intro idxs
  induction idxs with
  | nil => simp
  | cons i is ih =>
    simp only [List.flatMap_cons, List.length_append, List.map_cons, List.sum_cons, ih]
    have h1 := length_filterMap_add_countP (F i) (G i)
    have h2 := sum_countP_le_sum_length G (fun i p => (F i p).isNone) is
    omega

theorem sum_map_succ {α : Type} (l : List α) (g : α → Nat) :
    (l.map fun a => g a + 1).sum = (l.map g).sum + l.length := by
  induction l with
  | nil => rfl
  | cons x xs ih =>
    simp only [List.map_cons, List.sum_cons, List.length_cons, ih]
    omega

theorem two_mul_sum_pred :
    ∀ n : Nat, 2 * ((List.range n).map fun i => n - 1 - i).sum = n * (n - 1) := by
  intro n
  induction n with
  | zero => rfl
  | succ n ih =>
    rw [List.range_succ, List.map_append, List.sum_append]
    have hpt : (List.range n).map (fun i => n + 1 - 1 - i) =
        (List.range n).map (fun i => (n - 1 - i) + 1) := by
      apply List.map_congr_left
      intro i hi
      rw [List.mem_range] at hi
      omega
    rw [hpt, sum_map_succ]
    have key : n * (n - 1) + 2 * n = (n + 1) * n := by
      cases n with
      | zero => rfl
      | succ m =>
        simp only [Nat.succ_sub_one]
        ring
    simp only [List.map_cons, List.map_nil, List.sum_cons, List.sum_nil,
      List.length_range, Nat.add_sub_cancel]
    have hbr : ((List.range n).map fun i => n - 1 - i).sum =
        ((List.range n).map (HSub.hSub (n - 1))).sum := rfl
    omega

theorem factorPairs_length (n : Nat) : (factorPairs n).length = n * (n - 1) / 2 := by
  have h2 := two_mul_sum_pred n
  have hl : (factorPairs n).length = ((List.range n).map fun i => n - 1 - i).sum := by
    unfold factorPairs
    rw [List.length_flatMap]
    congr 1
    apply List.map_congr_left
    intro i hi
    rw [List.mem_range] at hi
    simp only [Function.comp_apply, List.length_map, List.length_range']
    omega
  have hbridge : ((List.range n).map fun i => n - 1 - i).sum =
      ((List.range n).map (HSub.hSub (n - 1))).sum := rfl
  omega

theorem factorPairs_mem (n i j : Nat) : (i, j) ∈ factorPairs n ↔ i < j ∧ j < n := by
  unfold factorPairs
  simp only [List.mem_flatMap, List.mem_map, List.mem_range, List.mem_range',
    Prod.mk.injEq]
  constructor
  · rintro ⟨a, ha, j', ⟨k, hk, rfl⟩, rfl, rfl⟩
    omega
  · rintro ⟨hij, hjn⟩
    exact ⟨i, by omega, j, ⟨j - (i + 1), by omega, by omega⟩, rfl, rfl⟩

theorem computeAllFactors_eq (C : Type) (clauseLen : C → Nat)
    (factor : C → Nat → Nat → Option C) (clause : C) :
    computeAllFactors C clauseLen factor clause =
      (factorPairs (clauseLen clause)).filterMap fun p =>
        match factor clause p.1 p.2 with
        | some f => if clauseLen f = 0 then none else some f
        | none => none := by
  unfold computeAllFactors factorPairs
  rw [List.filterMap_flatMap]
  congr 1
  funext i
  rw [List.filterMap_map]
  rfl

/-- C4 (amended): `computeAllResolvents` returns exactly the total number
of candidate partner pairs minus the number of pairs on which the
resolution rule returns the none-value; `computeAllFactors` examines
exactly the `n(n-1)/2` unordered position pairs `(i, j)` with `i < j`,
and returns, in order, every factor the rule produces that is truthy
(not the none-value and with a nonzero literal count) — an empty-clause
factor is dropped by the `if fact:` truthiness test. -/
theorem enumeration_counts :
    (∀ (C R : Type) (clauseLen : C → Nat) (getLiteral : C → Nat → Literal)
      (getResolutionLiterals : Literal → List (C × Nat))
      (resolution : C → Nat → C → Nat → Option R) (clause : C),
      (computeAllResolvents C R clauseLen getLiteral getResolutionLiterals
          resolution clause).length =
        resolventCandidateCount C clauseLen getLiteral getResolutionLiterals clause -
          resolventNoneCount C R clauseLen getLiteral getResolutionLiterals
            resolution clause) ∧
    (∀ n : Nat, (factorPairs n).length = n * (n - 1) / 2) ∧
    (∀ n i j : Nat, (i, j) ∈ factorPairs n ↔ i < j ∧ j < n) ∧
    (∀ (C : Type) (clauseLen : C → Nat) (factor : C → Nat → Nat → Option C)
      (clause : C),
      computeAllFactors C clauseLen factor clause =
        (factorPairs (clauseLen clause)).filterMap fun p =>
          match factor clause p.1 p.2 with
          | some f => if clauseLen f = 0 then none else some f
          | none => none) := by
  refine ⟨?_, factorPairs_length, factorPairs_mem, computeAllFactors_eq⟩
  intro C R clauseLen getLiteral getResolutionLiterals resolution clause
  unfold computeAllResolvents resolventCandidateCount resolventNoneCount
  exact sum_filterMap_lengths
    (fun lit => getResolutionLiterals (getLiteral clause lit))
    (fun lit p => resolution clause lit p.1 p.2)
    (List.range (clauseLen clause))

/-- Counterexample to C4 as stated: on a two-literal clause, a factoring
rule that produces the empty clause at the single examined pair `(0, 1)`
has its produced factor dropped by `computeAllFactors`, so the routine
does not return every factor the rule produces. -/
theorem factors_drop_empty_counterexample :
    (fun (_ : List Unit) (_ _ : Nat) => some ([] : List Unit)) [(), ()] 0 1 =
      some [] ∧
    computeAllFactors (List Unit) List.length (fun _ _ _ => some []) [(), ()] = [] :=
  ⟨rfl, by decide⟩

/-- C10: `computeAllResolvents` keeps every result that is not the
none-value, including a Python-falsy zero-literal clause, whereas
`computeAllFactors` keeps a factor only when it is truthy: an empty
clause returned by the factoring rule is silently dropped even though it
is not the none-value, while a nonempty factor is kept and none-values
are dropped by both routines. -/
theorem truthiness_filter_asymmetry :
    computeAllResolvents (List Unit) (List Unit) List.length
      (fun _ _ => ⟨Term.app "p" [], false⟩) (fun _ => [([()], 0)])
      (fun _ _ _ _ => some []) [()] = [[]] ∧
    computeAllFactors (List Unit) List.length (fun _ _ _ => some []) [(), ()] = [] ∧
    computeAllFactors (List Unit) List.length (fun _ _ _ => some [()]) [(), ()] =
      [[()]] ∧
    computeAllResolvents (List Unit) (List Unit) List.length
      (fun _ _ => ⟨Term.app "p" [], false⟩) (fun _ => [([()], 0)])
      (fun _ _ _ _ => none) [()] = [] := by
  refine ⟨by decide, by decide, by decide, by decide⟩

end PyRes
